import Mathlib

/-!
Verification development for the `clog` coloured-logging package.

The repository holds three revisions of the same Go file:
  * `clog.go`   — exact-match `PathLevel`, short-circuiting `skip`;
  * `part_000`  — exact-match `PathLevel`, fall-through `skip`;
  * `part_001`  — hierarchical `PathLevel` (via `path/filepath.Dir` ascent),
                  short-circuiting `skip`, per-tier prefix flags and
                  `mainPrefixName` override.
They are embedded below in the namespaces `Clog`, `Part0` and `Part1`.
Machine integers (`Level int`, line numbers) are modelled as `Int`/`Nat`;
none of the arithmetic here can overflow in the claims under study.
The external collaborators (terminal colouring `term.MagentaBold` etc. and
the output writers) are abstracted: colour functions are passed as opaque
`String → String` parameters and a call's writes are collected as the
string it appends to its tier's sink.  Go byte indices returned by
`strings.Index`/`strings.LastIndex` are modelled at rune granularity; the
two agree because the searched characters `'/'` and `'.'` are single-byte.
-/

/-- Log level: Go `type Level int`, severity of a log event. -/
abbrev Level := Int

/-- Go `LevelDebug Level = -4`. -/
def LevelDebug : Level := -4

/-- Go `LevelInfo Level = 0`. -/
def LevelInfo : Level := 0

/-- Go `LevelWarn Level = 4`. -/
def LevelWarn : Level := 4

/-- Go `LevelError Level = 8`. -/
def LevelError : Level := 8

/-- State of the Go map `activeLevel map[string]Level`, as a lookup
function: `r path = some l` models `activeLevel[path] = l, ok = true`. -/
abbrev Registry := String → Option Level

/-- The initial, empty `activeLevel` map. -/
def emptyRegistry : Registry := fun _ => none

/-- Go `SetPathLevel(path, level)`: `activeLevel[path] = level`.
Identical in all three revisions. -/
def SetPathLevel (r : Registry) (path : String) (level : Level) : Registry :=
  fun q => if q = path then some level else r q

/-- Index of the last occurrence of `c`, Go `strings.LastIndex(s, c)`
(`none` models the Go return value `-1`). -/
def lastIndexOf (c : Char) : List Char → Option Nat
  | [] => none
  | x :: xs =>
    match lastIndexOf c xs with
    | some i => some (i + 1)
    | none => if x = c then some 0 else none

/-- Index of the first occurrence of `c`, Go `strings.Index(s, c)`
(`none` models the Go return value `-1`). -/
def firstIndexOf (c : Char) : List Char → Option Nat
  | [] => none
  | x :: xs => if x = c then some 0 else (firstIndexOf c xs).map (· + 1)

/-- Go `getPkgPath(name)`: package path of a path-qualified function name.
Identical in all three revisions.  Mirrors the source: `end` starts at 0,
moves past the last `'/'` if any, then advances to the first `'.'` of the
remainder if any; the result is `name[:end]`. -/
def getPkgPath (name : String) : String :=
  let cs := name.toList
  let e1 := match lastIndexOf '/' cs with
    | some pos => pos + 1
    | none => 0
  let e2 := match firstIndexOf '.' (cs.drop e1) with
    | some pos => e1 + pos
    | none => e1
  String.mk (cs.take e2)

/-- Result of Go `callerName`: the caller's path-qualified function name,
file and line.  A failed stack inspection (`ok = false`) is `none`. -/
structure Caller where
  name : String
  file : String
  line : Nat

/-- Go `getQualifiedPaths()`: `("", "")` when stack inspection failed,
otherwise `(getPkgPath(name), name)`.  Identical in all three revisions. -/
def getQualifiedPaths (caller : Option Caller) : String × String :=
  match caller with
  | none => ("", "")
  | some c => (getPkgPath c.name, c.name)

/-- Go `getFileLine()`: empty on failed stack inspection, otherwise the
white-bold `file:line:` tag followed by a space.  `whiteBold` abstracts
the external `term.WhiteBold`. -/
def getFileLine (whiteBold : String → String) (caller : Option Caller) : String :=
  match caller with
  | none => ""
  | some c => whiteBold (c.file ++ ":" ++ toString c.line ++ ":") ++ " "

/-! ### Model of Go `path/filepath` (`Clean` and `Dir`, Unix rules)

`part_001`'s `PathLevel` ascends the path hierarchy with `filepath.Dir`.
`Dir` takes the prefix of the path up to and including its last `'/'`
(the empty string when there is none) and runs `Clean` on it.  `Clean`
is modelled segment-wise: split on `'/'`, drop empty and `"."` segments,
let `".."` pop the last real segment (rooted paths drop un-poppable
`".."`s, unrooted paths accumulate them), then re-join. -/

/-- Split a character list on `'/'` (the element boundaries `Clean`
processes); never returns `[]`. -/
def splitSlash : List Char → List (List Char)
  | [] => [[]]
  | c :: cs =>
    if c = '/' then [] :: splitSlash cs
    else
      match splitSlash cs with
      | [] => [[c]]
      | s :: ss => (c :: s) :: ss

/-- One path-element step of Go `filepath.Clean`.  The `stack` holds the
output elements most-recent first; `".."` pops the most recent real
element, is dropped at the root of a rooted path, and accumulates at the
front of an unrooted path (Go's `dotdot` region). -/
def cleanStep (rooted : Bool) (stack : List (List Char)) (seg : List Char) :
    List (List Char) :=
  if seg = [] ∨ seg = ['.'] then stack
  else if seg = ['.', '.'] then
    match stack with
    | [] => if rooted then [] else [['.', '.']]
    | top :: rest => if top = ['.', '.'] then seg :: stack else rest
  else seg :: stack

/-- Join path elements with `'/'` separators. -/
def joinSlash : List (List Char) → List Char
  | [] => []
  | [s] => s
  | s :: ss => s ++ '/' :: joinSlash ss

/-- Model of Go `path/filepath.Clean` on Unix.  An empty path cleans to
`"."`; otherwise the elements are processed by `cleanStep` and re-joined,
with an empty result turning into `"/"` (rooted) or `"."` (unrooted). -/
def goClean (s : String) : String :=
  let cs := s.toList
  if cs = [] then "."
  else
    let rooted := decide (cs.head? = some '/')
    let stack := (splitSlash cs).foldl (cleanStep rooted) []
    let out := stack.reverse
    if rooted then
      if out = [] then "/" else String.mk ('/' :: joinSlash out)
    else
      if out = [] then "." else String.mk (joinSlash out)

/-- The slice Go `filepath.Dir` hands to `Clean`: the prefix of `cs` up
to and including the last `'/'` (empty when there is no `'/'`). -/
def dirSlice (cs : List Char) : List Char :=
  (cs.reverse.dropWhile (fun c => decide (c ≠ '/'))).reverse

/-- Model of Go `path/filepath.Dir` on Unix: `Clean` of the prefix up to
and including the last separator. -/
def goDir (path : String) : String :=
  goClean (String.mk (dirSlice path.toList))

/-! ### clog.go revision -/

namespace Clog

/-- clog.go `PathLevel(path)`: exact map lookup, `(0, false)` when the
level was never set. -/
def PathLevel (r : Registry) (path : String) : Level × Bool :=
  match r path with
  | some level => (level, true)
  | none => (0, false)

/-- clog.go `skip(cur)`: on a function-path match return
`funcLevel > cur` immediately; otherwise fall back to the package path. -/
def skip (r : Registry) (caller : Option Caller) (cur : Level) : Bool :=
  let paths := getQualifiedPaths caller
  let fres := PathLevel r paths.2
  if fres.2 then decide (fres.1 > cur)
  else
    let pres := PathLevel r paths.1
    if pres.2 then decide (pres.1 > cur) else false

/-- clog.go `getPkgName(name)`: drop everything up to the last `'/'`,
then truncate at the first `'.'`.  (Same code in part_000; part_001 adds
the `mainPrefixName` override on top of these two steps.) -/
def getPkgName (name : String) : String :=
  let n1 := match lastIndexOf '/' name.toList with
    | some pos => String.mk (name.toList.drop (pos + 1))
    | none => name
  match firstIndexOf '.' n1.toList with
  | some pos => String.mk (n1.toList.take pos)
  | none => n1

end Clog

/-! ### part_000 revision -/

namespace Part0

/-- part_000 `PathLevel(path)`: exact map lookup, identical to clog.go's. -/
def PathLevel (r : Registry) (path : String) : Level × Bool :=
  match r path with
  | some level => (level, true)
  | none => (0, false)

/-- part_000 `skip(cur)`: `return true` only inside the inner `if`s, so a
function-path match whose level permits (`funcLevel ≤ cur`) falls through
to the package-path check. -/
def skip (r : Registry) (caller : Option Caller) (cur : Level) : Bool :=
  let paths := getQualifiedPaths caller
  let fres := PathLevel r paths.2
  if fres.2 && decide (fres.1 > cur) then true
  else
    let pres := PathLevel r paths.1
    if pres.2 && decide (pres.1 > cur) then true else false

end Part0

/-! ### part_001 revision -/

namespace Part1

/-- The `for` loop of part_001 `PathLevel`, with explicit fuel: look the
current path up, and on a miss ascend to `filepath.Dir` unless that is
empty or a fixed point.  `none` means the fuel ran out before the loop
finished (the termination theorem shows `2 * path.length + 2` never does). -/
def pathLevelLoop (r : Registry) : Nat → String → Option (Level × Bool)
  | 0, _ => none
  | fuel + 1, path =>
    match r path with
    | some level => some (level, true)
    | none =>
      let dir := goDir path
      if dir.length = 0 ∨ dir = path then some (0, false)
      else pathLevelLoop r fuel dir

/-- part_001 `PathLevel(path)`: hierarchical lookup walking up the
directory tree. -/
def PathLevel (r : Registry) (path : String) : Level × Bool :=
  (pathLevelLoop r (2 * path.length + 2) path).getD (0, false)

/-- part_001 `skip(cur)`: same short-circuit shape as clog.go's, but over
the hierarchical `PathLevel`. -/
def skip (r : Registry) (caller : Option Caller) (cur : Level) : Bool :=
  let paths := getQualifiedPaths caller
  let fres := PathLevel r paths.2
  if fres.2 then decide (fres.1 > cur)
  else
    let pres := PathLevel r paths.1
    if pres.2 then decide (pres.1 > cur) else false

/-- The override that part_001 `skip` resolves for a call site: the
hierarchical function-path lookup if it hits, else the hierarchical
package-path lookup, else none. -/
def resolvedLevel (r : Registry) (caller : Option Caller) : Option Level :=
  let paths := getQualifiedPaths caller
  let fres := PathLevel r paths.2
  if fres.2 then some fres.1
  else
    let pres := PathLevel r paths.1
    if pres.2 then some pres.1 else none

/-- part_001 `getPkgName(name)`: the two derivation steps of clog.go's
`getPkgName`, then the `mainPrefixName` override when the derived name is
`"main"` and the override is non-empty.  `mainPrefixName` (the global set
by `SetMainPrefixName`) is passed explicitly. -/
def getPkgName (mainPrefixName : String) (name : String) : String :=
  let n1 := match lastIndexOf '/' name.toList with
    | some pos => String.mk (name.toList.drop (pos + 1))
    | none => name
  let n2 := match firstIndexOf '.' n1.toList with
    | some pos => String.mk (n1.toList.take pos)
    | none => n1
  if n2 = "main" ∧ 0 < mainPrefixName.length then mainPrefixName else n2

/-- part_001 `getPrefix(colorFunc)`: empty on failed stack inspection,
otherwise the coloured `pkgName:` tag followed by a space. -/
def getPrefixTag (colorFunc : String → String) (mainPrefixName : String)
    (caller : Option Caller) : String :=
  match caller with
  | none => ""
  | some c => colorFunc (getPkgName mainPrefixName c.name ++ ":") ++ " "

end Part1

/-- What one part_001 emission entry point does to observable state:
`out` is the byte sequence the call appends to its tier's sink (empty
when the message is suppressed) and `exitCode` is `some 1` exactly when
the call reaches `os.Exit(1)`. -/
structure EmitResult where
  out : String
  exitCode : Option Nat
deriving DecidableEq

namespace Part1

/-- Common shape of the twelve part_001 emission entry points: suppress
via `skip`, else write the optional prefix (with `file:line` tag on the
warn/error tiers), the formatted body, and a trailing newline, then exit
on the error tier.  `body` is the already-formatted message (the
`fmt.Fprint`/`Fprintf`/`Fprintln` argument formatting is external);
`usePfx` is the tier's prefix flag, `colorFunc`/`whiteBold` abstract the
tier's `term` colour functions. -/
def emit (r : Registry) (mainPrefixName : String) (colorFunc whiteBold : String → String)
    (usePfx withFileLine exitAfter : Bool) (lvl : Level)
    (caller : Option Caller) (body : String) : EmitResult :=
  if skip r caller lvl then { out := "", exitCode := none }
  else
    let pre :=
      if usePfx then
        getPrefixTag colorFunc mainPrefixName caller ++
          (if withFileLine then getFileLine whiteBold caller else "")
      else ""
    { out := pre ++ body ++ "\n", exitCode := if exitAfter then some 1 else none }

/-- part_001 `Debug`: magenta prefix, no file:line, no exit. -/
def Debug (r : Registry) (mainPrefixName : String) (colorFunc : String → String)
    (usePfx : Bool) (caller : Option Caller) (body : String) : EmitResult :=
  emit r mainPrefixName colorFunc (fun s => s) usePfx false false LevelDebug caller body

/-- part_001 `Debugf`: same observable behaviour as `Debug` modulo the
external body formatting. -/
def Debugf (r : Registry) (mainPrefixName : String) (colorFunc : String → String)
    (usePfx : Bool) (caller : Option Caller) (body : String) : EmitResult :=
  emit r mainPrefixName colorFunc (fun s => s) usePfx false false LevelDebug caller body

/-- part_001 `Debugln`. -/
def Debugln (r : Registry) (mainPrefixName : String) (colorFunc : String → String)
    (usePfx : Bool) (caller : Option Caller) (body : String) : EmitResult :=
  emit r mainPrefixName colorFunc (fun s => s) usePfx false false LevelDebug caller body

/-- part_001 `Info`: cyan prefix, no file:line, no exit. -/
def Info (r : Registry) (mainPrefixName : String) (colorFunc : String → String)
    (usePfx : Bool) (caller : Option Caller) (body : String) : EmitResult :=
  emit r mainPrefixName colorFunc (fun s => s) usePfx false false LevelInfo caller body

/-- part_001 `Infof`. -/
def Infof (r : Registry) (mainPrefixName : String) (colorFunc : String → String)
    (usePfx : Bool) (caller : Option Caller) (body : String) : EmitResult :=
  emit r mainPrefixName colorFunc (fun s => s) usePfx false false LevelInfo caller body

/-- part_001 `Infoln`. -/
def Infoln (r : Registry) (mainPrefixName : String) (colorFunc : String → String)
    (usePfx : Bool) (caller : Option Caller) (body : String) : EmitResult :=
  emit r mainPrefixName colorFunc (fun s => s) usePfx false false LevelInfo caller body

/-- part_001 `Warn`: red prefix plus white-bold file:line, no exit. -/
def Warn (r : Registry) (mainPrefixName : String) (colorFunc whiteBold : String → String)
    (usePfx : Bool) (caller : Option Caller) (body : String) : EmitResult :=
  emit r mainPrefixName colorFunc whiteBold usePfx true false LevelWarn caller body

/-- part_001 `Warnf`. -/
def Warnf (r : Registry) (mainPrefixName : String) (colorFunc whiteBold : String → String)
    (usePfx : Bool) (caller : Option Caller) (body : String) : EmitResult :=
  emit r mainPrefixName colorFunc whiteBold usePfx true false LevelWarn caller body

/-- part_001 `Warnln`. -/
def Warnln (r : Registry) (mainPrefixName : String) (colorFunc whiteBold : String → String)
    (usePfx : Bool) (caller : Option Caller) (body : String) : EmitResult :=
  emit r mainPrefixName colorFunc whiteBold usePfx true false LevelWarn caller body

/-- part_001 `Fatal`: red prefix plus file:line, then `os.Exit(1)`. -/
def Fatal (r : Registry) (mainPrefixName : String) (colorFunc whiteBold : String → String)
    (usePfx : Bool) (caller : Option Caller) (body : String) : EmitResult :=
  emit r mainPrefixName colorFunc whiteBold usePfx true true LevelError caller body

/-- part_001 `Fatalf`. -/
def Fatalf (r : Registry) (mainPrefixName : String) (colorFunc whiteBold : String → String)
    (usePfx : Bool) (caller : Option Caller) (body : String) : EmitResult :=
  emit r mainPrefixName colorFunc whiteBold usePfx true true LevelError caller body

/-- part_001 `Fatalln`. -/
def Fatalln (r : Registry) (mainPrefixName : String) (colorFunc whiteBold : String → String)
    (usePfx : Bool) (caller : Option Caller) (body : String) : EmitResult :=
  emit r mainPrefixName colorFunc whiteBold usePfx true true LevelError caller body

end Part1

example : getPkgPath "github.com/mewpkg/clog.Debugf" = "github.com/mewpkg/clog" := by decide
example : getPkgPath "main.main" = "main" := by decide
example : getPkgPath "a/b" = "a/" := by decide
example : goDir "a/b/c.Func" = "a/b" := by decide
example : goDir "a" = "." := by decide
example : goDir "" = "." := by decide
example : goDir "/" = "/" := by decide
example : goClean "a/../b" = "b" := by decide
example : goClean "/.." = "/" := by decide
example : Clog.getPkgName "github.com/mewpkg/clog.Debugf" = "clog" := by decide
example : Part1.getPkgName "myapp" "main.main" = "myapp" := by decide
example : Part1.getPkgName "" "main.main" = "main" := by decide

/-! ### Length accounting for `goClean`

`stackWeight` charges each output element its length plus one separator;
processing the elements of a split path never exceeds the budget
`segBudget`, which in turn is bounded by the total weight of the split
(`length + 1`) minus one for every empty element.  A path ending in `'/'`
has an empty final element, a rooted one also an empty first element, and
that slack makes `goClean` shrink such paths. -/

/-- Weight of one path element: its length plus one separator. -/
def segWeight (s : List Char) : Nat := s.length + 1

/-- Total weight of an output stack. -/
def stackWeight (st : List (List Char)) : Nat := (st.map segWeight).sum

/-- Weight budget a processed element can add to the stack: zero for the
elements `cleanStep` drops. -/
def segBudget (s : List Char) : Nat :=
  if s = [] ∨ s = ['.'] then 0 else segWeight s

theorem splitSlash_cons_slash (cs : List Char) :
    splitSlash ('/' :: cs) = [] :: splitSlash cs := by
  conv_lhs => rw [splitSlash.eq_def]
  simp

theorem splitSlash_cons_ne (c : Char) (cs : List Char) (hc : ¬ c = '/')
    (s : List Char) (ss : List (List Char)) (hss : splitSlash cs = s :: ss) :
    splitSlash (c :: cs) = (c :: s) :: ss := by
  conv_lhs => rw [splitSlash.eq_def]
  simp only [hss, hc, if_false]

theorem splitSlash_ne_nil (cs : List Char) : splitSlash cs ≠ [] := by
  cases cs with
  | nil => simp [splitSlash]
  | cons c cs =>
    by_cases hc : c = '/'
    · simp [splitSlash, hc]
    · simp only [splitSlash, if_neg hc]
      cases h : splitSlash cs <;> simp

theorem stackWeight_cleanStep (rooted : Bool) (stack : List (List Char))
    (seg : List Char) :
    stackWeight (cleanStep rooted stack seg) ≤ stackWeight stack + segBudget seg := by
  unfold cleanStep segBudget
  by_cases h1 : seg = [] ∨ seg = ['.']
  · simp [h1]
  · simp only [if_neg h1]
    by_cases h2 : seg = ['.', '.']
    · simp only [if_pos h2]
      cases stack with
      | nil =>
        cases rooted <;> simp [stackWeight, segWeight, h2]
      | cons top rest =>
        by_cases h3 : top = ['.', '.']
        · simp [h3, stackWeight, segWeight, h2]; omega
        · simp [h3, stackWeight, segWeight]; omega
    · simp [h2, stackWeight, segWeight]; omega

theorem stackWeight_foldl (rooted : Bool) (segs : List (List Char)) :
    ∀ stack, stackWeight (segs.foldl (cleanStep rooted) stack) ≤
      stackWeight stack + (segs.map segBudget).sum := by
  induction segs with
  | nil => intro stack; simp
  | cons seg rest ih =>
    intro stack
    have h1 := stackWeight_cleanStep rooted stack seg
    have h2 := ih (cleanStep rooted stack seg)
    simp only [List.foldl_cons, List.map_cons, List.sum_cons]
    omega

/-- Number of empty elements in a split path. -/
def nilCount : List (List Char) → Nat
  | [] => 0
  | s :: ss => (if s = [] then 1 else 0) + nilCount ss

theorem segBudget_nilCount (segs : List (List Char)) :
    (segs.map segBudget).sum + nilCount segs ≤ (segs.map segWeight).sum := by
  induction segs with
  | nil => simp [nilCount]
  | cons seg rest ih =>
    simp only [List.map_cons, List.sum_cons, nilCount]
    have hb : segBudget seg + (if seg = [] then 1 else 0) ≤ segWeight seg := by
      unfold segBudget segWeight
      by_cases h : seg = [] ∨ seg = ['.']
      · rcases h with h | h <;> subst h <;> simp
      · push_neg at h
        simp [h.1, h.2]
    omega

theorem splitSlash_weight (cs : List Char) :
    ((splitSlash cs).map segWeight).sum = cs.length + 1 := by
  induction cs with
  | nil => simp [splitSlash, segWeight]
  | cons c cs ih =>
    by_cases hc : c = '/'
    · simp only [splitSlash, if_pos hc, List.map_cons, List.sum_cons, List.length_cons]
      rw [ih]
      simp [segWeight]
      omega
    · simp only [splitSlash, if_neg hc]
      cases h : splitSlash cs with
      | nil => exact absurd h (splitSlash_ne_nil cs)
      | cons s ss =>
        rw [h] at ih
        simp only [List.map_cons, List.sum_cons, segWeight] at ih ⊢
        simp only [List.length_cons]
        omega

theorem joinSlash_length (out : List (List Char)) (h : out ≠ []) :
    (joinSlash out).length + 1 = stackWeight out := by
  induction out with
  | nil => exact absurd rfl h
  | cons s ss ih =>
    cases ss with
    | nil => simp [joinSlash, stackWeight, segWeight]
    | cons t ts =>
      have := ih (by simp)
      simp only [joinSlash, List.length_append, List.length_cons] at *
      simp only [stackWeight, List.map_cons, List.sum_cons, segWeight] at *
      omega

theorem splitSlash_last (cs : List Char) (h : cs.getLast? = some '/') :
    2 ≤ (splitSlash cs).length ∧ (splitSlash cs).getLast? = some [] := by
  induction cs with
  | nil => simp at h
  | cons c cs ih =>
    cases cs with
    | nil =>
      simp [List.getLast?] at h
      subst h
      refine ⟨by simp [splitSlash], ?_⟩
      simp [splitSlash, List.getLast?]
    | cons d ds =>
      have h' : (d :: ds).getLast? = some '/' := by
        rwa [List.getLast?_cons_cons] at h
      obtain ⟨hlen, hlast⟩ := ih h'
      cases hss : splitSlash (d :: ds) with
      | nil => exact absurd hss (splitSlash_ne_nil (d :: ds))
      | cons s ss =>
        rw [hss] at hlen hlast
        cases ss with
        | nil => simp at hlen
        | cons t ts =>
          by_cases hc : c = '/'
          · have hrw : splitSlash (c :: d :: ds) = [] :: s :: t :: ts := by
              rw [hc, splitSlash_cons_slash, hss]
            rw [hrw]
            refine ⟨by simp, ?_⟩
            rw [List.getLast?_cons_cons, List.getLast?_cons_cons]
            rw [List.getLast?_cons_cons] at hlast
            exact hlast
          · have hrw : splitSlash (c :: d :: ds) = (c :: s) :: t :: ts := by
              exact splitSlash_cons_ne c (d :: ds) hc s (t :: ts) hss
            rw [hrw]
            refine ⟨by simp, ?_⟩
            rw [List.getLast?_cons_cons]
            rw [List.getLast?_cons_cons] at hlast
            exact hlast

theorem nilCount_pos_of_last (segs : List (List Char))
    (h : segs.getLast? = some []) : 1 ≤ nilCount segs := by
  induction segs with
  | nil => simp at h
  | cons s ss ih =>
    cases ss with
    | nil =>
      simp [List.getLast?] at h
      subst h
      simp [nilCount]
    | cons t ts =>
      rw [List.getLast?_cons_cons] at h
      have hx := ih h
      simp only [nilCount] at hx ⊢
      omega

theorem stackWeight_reverse (st : List (List Char)) :
    stackWeight st.reverse = stackWeight st := by
  simp [stackWeight, List.map_reverse, List.sum_reverse]


theorem goClean_mk_rooted (cs : List Char) (hne : cs ≠ [])
    (hr : cs.head? = some '/') :
    goClean (String.mk cs) =
      (if ((splitSlash cs).foldl (cleanStep true) []).reverse = [] then "/"
       else String.mk ('/' :: joinSlash (((splitSlash cs).foldl (cleanStep true) []).reverse))) := by
  simp only [goClean, String.toList]
  rw [if_neg hne]
  simp [hr]

theorem goClean_mk_unrooted (cs : List Char) (hne : cs ≠ [])
    (hr : ¬ cs.head? = some '/') :
    goClean (String.mk cs) =
      (if ((splitSlash cs).foldl (cleanStep false) []).reverse = [] then "."
       else String.mk (joinSlash (((splitSlash cs).foldl (cleanStep false) []).reverse))) := by
  simp only [goClean, String.toList]
  rw [if_neg hne]
  simp [hr]

/-- The central length bound: cleaning a path that ends in `'/'` never
lengthens it, and strictly shortens it unless the path is `"/"` itself. -/
theorem goClean_length (cs : List Char) (h : cs.getLast? = some '/') :
    (goClean (String.mk cs)).length ≤ cs.length ∧
      (cs ≠ ['/'] → (goClean (String.mk cs)).length < cs.length) := by
  have hne : cs ≠ [] := by intro e; subst e; simp at h
  have hc1 : 1 ≤ nilCount (splitSlash cs) :=
    nilCount_pos_of_last _ (splitSlash_last cs h).2
  by_cases hr : cs.head? = some '/'
  · by_cases hone : cs = ['/']
    · subst hone
      exact ⟨by decide, fun hcontra => absurd rfl hcontra⟩
    · have hW : stackWeight ((splitSlash cs).foldl (cleanStep true) []) +
          nilCount (splitSlash cs) ≤ cs.length + 1 := by
        have h1 := stackWeight_foldl true (splitSlash cs) []
        have h2 := segBudget_nilCount (splitSlash cs)
        have h3 := splitSlash_weight cs
        have h0 : stackWeight ([] : List (List Char)) = 0 := by simp [stackWeight]
        omega
      obtain ⟨c, cs', rfl⟩ : ∃ c cs', cs = c :: cs' := by
        cases cs with
        | nil => exact absurd rfl hne
        | cons a t => exact ⟨a, t, rfl⟩
      have hc' : c = '/' := by simpa using hr
      subst hc'
      obtain ⟨d, ds, rfl⟩ : ∃ d ds, cs' = d :: ds := by
        cases cs' with
        | nil => exact absurd rfl hone
        | cons a t => exact ⟨a, t, rfl⟩
      have hlast' : (d :: ds).getLast? = some '/' := by
        rwa [List.getLast?_cons_cons] at h
      have hc2 : 2 ≤ nilCount (splitSlash ('/' :: d :: ds)) := by
        rw [splitSlash_cons_slash]
        have hx := nilCount_pos_of_last _ (splitSlash_last (d :: ds) hlast').2
        simp [nilCount]
        omega
      rw [goClean_mk_rooted ('/' :: d :: ds) hne hr]
      by_cases ho : ((splitSlash ('/' :: d :: ds)).foldl (cleanStep true) []).reverse = []
      · rw [if_pos ho]
        have hslash : ("/" : String).length = 1 := rfl
        have hlencs : ('/' :: d :: ds).length = ds.length + 2 := by
          simp only [List.length_cons]
        constructor
        · rw [hslash, hlencs]; omega
        · intro _; rw [hslash, hlencs]; omega
      · rw [if_neg ho]
        have hjoin := joinSlash_length _ ho
        rw [stackWeight_reverse] at hjoin
        have hlen1 : (String.mk ('/' :: joinSlash
              (((splitSlash ('/' :: d :: ds)).foldl (cleanStep true) []).reverse))).length =
            (joinSlash (((splitSlash ('/' :: d :: ds)).foldl (cleanStep true) []).reverse)).length + 1 := by
          simp only [String.length, String.mk, List.length_cons]
        constructor
        · rw [hlen1]; omega
        · intro _; rw [hlen1]; omega
  · have hW : stackWeight ((splitSlash cs).foldl (cleanStep false) []) +
        nilCount (splitSlash cs) ≤ cs.length + 1 := by
      have h1 := stackWeight_foldl false (splitSlash cs) []
      have h2 := segBudget_nilCount (splitSlash cs)
      have h3 := splitSlash_weight cs
      have h0 : stackWeight ([] : List (List Char)) = 0 := by simp [stackWeight]
      omega
    have hlen2 : 2 ≤ cs.length := by
      cases cs with
      | nil => exact absurd rfl hne
      | cons a t =>
        cases t with
        | nil =>
          simp [List.getLast?] at h
          subst h
          simp at hr
        | cons b u =>
          simp only [List.length_cons]
          omega
    rw [goClean_mk_unrooted cs hne hr]
    by_cases ho : ((splitSlash cs).foldl (cleanStep false) []).reverse = []
    · rw [if_pos ho]
      have hdotlen : ("." : String).length = 1 := rfl
      exact ⟨by rw [hdotlen]; omega, fun _ => by rw [hdotlen]; omega⟩
    · rw [if_neg ho]
      have hjoin := joinSlash_length _ ho
      rw [stackWeight_reverse] at hjoin
      have hlen1 : (String.mk (joinSlash
            (((splitSlash cs).foldl (cleanStep false) []).reverse))).length =
          (joinSlash (((splitSlash cs).foldl (cleanStep false) []).reverse)).length := rfl
      rw [hlen1]
      exact ⟨by omega, fun _ => by omega⟩

theorem length_dropWhile_le (p : Char → Bool) (l : List Char) :
    (l.dropWhile p).length ≤ l.length := by
  induction l with
  | nil => simp
  | cons a l ih =>
    cases hb : p a
    · rw [List.dropWhile_cons_of_neg (by simp [hb])]
    · rw [List.dropWhile_cons_of_pos hb]
      simp only [List.length_cons]
      omega

theorem dropWhile_head_false (p : Char → Bool) (l : List Char) (a : Char)
    (t : List Char) (h : l.dropWhile p = a :: t) : p a = false := by
  induction l with
  | nil => simp at h
  | cons b l ih =>
    cases hb : p b
    · rw [List.dropWhile_cons_of_neg (by simp [hb])] at h
      injection h with h1 _
      rwa [← h1]
    · rw [List.dropWhile_cons_of_pos hb] at h
      exact ih h

theorem dirSlice_no_slash (cs : List Char) (h : '/' ∉ cs) : dirSlice cs = [] := by
  unfold dirSlice
  have hd : cs.reverse.dropWhile (fun c => decide (c ≠ '/')) = [] := by
    rw [List.dropWhile_eq_nil_iff]
    intro x hx
    simp only [decide_eq_true_eq]
    intro hxe
    subst hxe
    exact h (List.mem_reverse.mp hx)
  rw [hd]
  rfl

theorem dirSlice_last_slash (cs : List Char) (h : cs.getLast? = some '/') :
    dirSlice cs = cs := by
  cases hrv : cs.reverse with
  | nil =>
    have : cs = [] := by
      have := congrArg List.reverse hrv
      simpa using this
    subst this
    simp at h
  | cons a t =>
    have ha : a = '/' := by
      have h1 : cs.reverse.head? = some '/' := by rw [List.head?_reverse]; exact h
      rw [hrv] at h1
      simpa using h1
    unfold dirSlice
    rw [hrv, List.dropWhile_cons_of_neg (by simp [ha]), ← hrv, List.reverse_reverse]

theorem dirSlice_length_lt (cs : List Char) (c : Char) (h : cs.getLast? = some c)
    (hc : ¬ c = '/') : (dirSlice cs).length < cs.length := by
  cases hrv : cs.reverse with
  | nil =>
    have : cs = [] := by
      have := congrArg List.reverse hrv
      simpa using this
    subst this
    simp at h
  | cons a t =>
    have ha : a = c := by
      have h1 : cs.reverse.head? = some c := by rw [List.head?_reverse]; exact h
      rw [hrv] at h1
      simpa using h1
    have hlencs : cs.length = t.length + 1 := by
      have : cs.reverse.length = (a :: t).length := by rw [hrv]
      simpa [List.length_reverse] using this
    unfold dirSlice
    rw [hrv, List.dropWhile_cons_of_pos (by simp [ha, hc])]
    have := length_dropWhile_le (fun c => decide (c ≠ '/')) t
    simp only [List.length_reverse]
    omega

theorem dirSlice_last_of_mem (cs : List Char) (h : '/' ∈ cs) :
    (dirSlice cs).getLast? = some '/' ∧ dirSlice cs ≠ [] := by
  have hmem : '/' ∈ cs.reverse := List.mem_reverse.mpr h
  cases hd : cs.reverse.dropWhile (fun c => decide (c ≠ '/')) with
  | nil =>
    rw [List.dropWhile_eq_nil_iff] at hd
    have := hd '/' hmem
    simp at this
  | cons a t =>
    have ha : a = '/' := by
      have := dropWhile_head_false _ _ _ _ hd
      simpa using this
    unfold dirSlice
    rw [hd]
    constructor
    · rw [List.getLast?_reverse]
      simp [ha]
    · simp

/-- Termination measure for the `filepath.Dir` ascent: the fixed point
`"."` measures 0, every other path measures below `2 * length + 2`. -/
def pathMeasure (p : String) : Nat :=
  if p = "." then 0 else if p = "" then 1 else 2 * p.length

theorem length_toList (p : String) : p.toList.length = p.length := rfl

theorem ne_empty_of_mem (p : String) (c : Char) (h : c ∈ p.toList) : p ≠ "" := by
  intro e
  subst e
  simp at h

theorem pathMeasure_pos (p : String) (hdot : p ≠ ".") : 0 < pathMeasure p := by
  unfold pathMeasure
  rw [if_neg hdot]
  by_cases he : p = ""
  · rw [if_pos he]; omega
  · rw [if_neg he]
    have : p.toList ≠ [] := by
      intro e
      apply he
      cases p with
      | mk d =>
        simp only [String.toList] at e
        rw [e]
    have : 0 < p.toList.length := List.length_pos.mpr this
    rw [length_toList] at this
    omega

/-- One `filepath.Dir` ascent step strictly decreases the measure
whenever the loop in part_001 `PathLevel` continues (the parent is
non-empty and differs from the current path). -/
theorem goDir_measure_lt (p : String) (hne : goDir p ≠ p)
    (hlen : (goDir p).length ≠ 0) : pathMeasure (goDir p) < pathMeasure p := by
  by_cases hmem : '/' ∈ p.toList
  · obtain ⟨hgl, hdnn⟩ := dirSlice_last_of_mem p.toList hmem
    have hp0 : p ≠ "" := ne_empty_of_mem p '/' hmem
    have hpdot : p ≠ "." := by
      intro e
      rw [e] at hmem
      simp at hmem
    have hmup : pathMeasure p = 2 * p.length := by
      unfold pathMeasure
      rw [if_neg hpdot, if_neg hp0]
    by_cases hdot : goDir p = "."
    · rw [hdot]
      have h0 : pathMeasure "." = 0 := rfl
      rw [h0, hmup]
      have := pathMeasure_pos p hpdot
      omega
    · have hdir0 : goDir p ≠ "" := by
        intro e
        rw [e] at hlen
        exact hlen rfl
      have hmud : pathMeasure (goDir p) = 2 * (goDir p).length := by
        unfold pathMeasure
        rw [if_neg hdot, if_neg hdir0]
      suffices hlt : (goDir p).length < p.length by
        rw [hmup, hmud]
        omega
      cases hlast : p.toList.getLast? with
      | none =>
        have : p.toList = [] := by
          cases hcs : p.toList with
          | nil => rfl
          | cons a t => rw [hcs] at hlast; simp [List.getLast?] at hlast
        rw [this] at hmem
        simp at hmem
      | some c =>
        by_cases hc : c = '/'
        · subst hc
          have hds : dirSlice p.toList = p.toList := dirSlice_last_slash _ hlast
          have hpslash : p.toList ≠ ['/'] := by
            intro e
            apply hne
            have hp' : p = "/" := by
              cases p with
              | mk d =>
                simp only [String.toList] at e
                rw [e]
            rw [hp']
            decide
          have hstrict := (goClean_length p.toList hlast).2 hpslash
          unfold goDir
          rw [hds]
          rw [← length_toList p]
          exact hstrict
        · have hlt1 : (dirSlice p.toList).length < p.toList.length :=
            dirSlice_length_lt _ c hlast hc
          have hle1 := (goClean_length (dirSlice p.toList) hgl).1
          unfold goDir
          rw [← length_toList p]
          omega
  · have hds : dirSlice p.toList = [] := dirSlice_no_slash _ hmem
    have hdir : goDir p = "." := by
      unfold goDir
      rw [hds]
      rfl
    rw [hdir]
    have h0 : pathMeasure "." = 0 := rfl
    rw [h0]
    have hpdot : p ≠ "." := by
      intro e
      apply hne
      rw [hdir, e]
    exact pathMeasure_pos p hpdot

theorem pathLevelLoop_succ (r : Registry) (n : Nat) (path : String) :
    Part1.pathLevelLoop r (n + 1) path =
      (match r path with
       | some level => some (level, true)
       | none =>
         if (goDir path).length = 0 ∨ goDir path = path then some (0, false)
         else Part1.pathLevelLoop r n (goDir path)) := rfl

theorem pathLevelLoop_succ_some (r : Registry) (n : Nat) (path : String)
    (l : Level) (h : r path = some l) :
    Part1.pathLevelLoop r (n + 1) path = some (l, true) := by
  rw [pathLevelLoop_succ, h]

theorem pathLevelLoop_succ_none (r : Registry) (n : Nat) (path : String)
    (h : r path = none) :
    Part1.pathLevelLoop r (n + 1) path =
      (if (goDir path).length = 0 ∨ goDir path = path then some (0, false)
       else Part1.pathLevelLoop r n (goDir path)) := by
  rw [pathLevelLoop_succ, h]

/-- With fuel above the measure, the part_001 lookup loop always
finishes. -/
theorem pathLevelLoop_isSome (r : Registry) (fuel : Nat) :
    ∀ p, pathMeasure p < fuel → (Part1.pathLevelLoop r fuel p).isSome = true := by
  induction fuel with
  | zero => intro p h; exact absurd h (Nat.not_lt_zero _)
  | succ n ih =>
    intro p h
    cases hr : r p with
    | some l => rw [pathLevelLoop_succ_some r n p l hr]; rfl
    | none =>
      rw [pathLevelLoop_succ_none r n p hr]
      by_cases hb : (goDir p).length = 0 ∨ goDir p = p
      · rw [if_pos hb]; rfl
      · rw [if_neg hb]
        push_neg at hb
        have hdec := goDir_measure_lt p hb.2 hb.1
        exact ih (goDir p) (by omega)

/-- The loop result does not depend on the fuel once the fuel exceeds the
measure. -/
theorem pathLevelLoop_fuel (r : Registry) (f1 : Nat) :
    ∀ f2 p, pathMeasure p < f1 → pathMeasure p < f2 →
      Part1.pathLevelLoop r f1 p = Part1.pathLevelLoop r f2 p := by
  induction f1 with
  | zero => intro f2 p h1 _; exact absurd h1 (Nat.not_lt_zero _)
  | succ n ih =>
    intro f2 p h1 h2
    cases f2 with
    | zero => exact absurd h2 (Nat.not_lt_zero _)
    | succ m =>
      cases hr : r p with
      | some l =>
        rw [pathLevelLoop_succ_some r n p l hr, pathLevelLoop_succ_some r m p l hr]
      | none =>
        rw [pathLevelLoop_succ_none r n p hr, pathLevelLoop_succ_none r m p hr]
        by_cases hb : (goDir p).length = 0 ∨ goDir p = p
        · rw [if_pos hb, if_pos hb]
        · rw [if_neg hb, if_neg hb]
          push_neg at hb
          have hdec := goDir_measure_lt p hb.2 hb.1
          exact ih m (goDir p) (by omega) (by omega)

theorem pathMeasure_lt_fuel (p : String) : pathMeasure p < 2 * p.length + 2 := by
  unfold pathMeasure
  by_cases h1 : p = "."
  · rw [if_pos h1]; omega
  · rw [if_neg h1]
    by_cases h2 : p = ""
    · rw [if_pos h2]; omega
    · rw [if_neg h2]; omega

theorem two_mul_len_succ (p : String) :
    2 * p.length + 2 = (2 * p.length + 1) + 1 := rfl

/-- Exact hit: an entry installed for `path` is returned as-is. -/
theorem PathLevel_hit (r : Registry) (p : String) (l : Level)
    (h : r p = some l) : Part1.PathLevel r p = (l, true) := by
  unfold Part1.PathLevel
  rw [two_mul_len_succ, pathLevelLoop_succ_some r _ p l h]
  rfl

/-- Root reached: on a miss whose parent is empty or a fixed point the
lookup reports `(0, false)`. -/
theorem PathLevel_break (r : Registry) (p : String) (h : r p = none)
    (hb : (goDir p).length = 0 ∨ goDir p = p) :
    Part1.PathLevel r p = (0, false) := by
  unfold Part1.PathLevel
  rw [two_mul_len_succ, pathLevelLoop_succ_none r _ p h, if_pos hb]
  rfl

/-- Ascent step: on a miss the lookup continues at `filepath.Dir path`. -/
theorem PathLevel_step (r : Registry) (p : String) (h : r p = none)
    (hb : ¬ ((goDir p).length = 0 ∨ goDir p = p)) :
    Part1.PathLevel r p = Part1.PathLevel r (goDir p) := by
  unfold Part1.PathLevel
  rw [two_mul_len_succ, pathLevelLoop_succ_none r _ p h, if_neg hb]
  have heq : Part1.pathLevelLoop r (2 * p.length + 1) (goDir p) =
      Part1.pathLevelLoop r (2 * (goDir p).length + 2) (goDir p) := by
    apply pathLevelLoop_fuel
    · push_neg at hb
      have hdec := goDir_measure_lt p hb.2 hb.1
      have := pathMeasure_lt_fuel p
      omega
    · exact pathMeasure_lt_fuel (goDir p)
  rw [heq]

/-! ### Helper characterisations used by the claim theorems -/

theorem str_empty_append (s : String) : "" ++ s = s := by
  cases s with
  | mk d => rfl

theorem length_pos_iff_ne_empty (s : String) : 0 < s.length ↔ s ≠ "" := by
  cases s with
  | mk d =>
    constructor
    · intro h e
      have hd : d = [] := by
        have := congrArg String.data e
        simpa using this
      subst hd
      simp [String.length] at h
    · intro h
      have hd : d ≠ [] := by
        intro e
        apply h
        rw [e]
      have := List.length_pos.mpr hd
      simpa [String.length] using this

/-- part_001 `skip` decided through the override it resolves. -/
theorem skip_eq_resolvedLevel (r : Registry) (caller : Option Caller) (cur : Level) :
    Part1.skip r caller cur =
      (match Part1.resolvedLevel r caller with
       | some t => decide (t > cur)
       | none => false) := by
  unfold Part1.skip Part1.resolvedLevel
  by_cases h1 : (Part1.PathLevel r (getQualifiedPaths caller).2).2 = true
  · simp only [h1, if_true]
  · simp only [h1, if_false, Bool.false_eq_true]
    by_cases h2 : (Part1.PathLevel r (getQualifiedPaths caller).1).2 = true
    · simp only [h2, if_true]
    · simp only [h2, if_false, Bool.false_eq_true]

theorem firstIndexOf_some_of_mem (c : Char) (l : List Char) (h : c ∈ l) :
    ∃ j, firstIndexOf c l = some j := by
  induction l with
  | nil => simp at h
  | cons x xs ih =>
    by_cases hx : x = c
    · exact ⟨0, by simp [firstIndexOf, hx]⟩
    · have hmem : c ∈ xs := by
        rcases List.mem_cons.mp h with h' | h'
        · exact absurd h'.symm hx
        · exact h'
      obtain ⟨j, hj⟩ := ih hmem
      exact ⟨j + 1, by simp [firstIndexOf, hx, hj]⟩

theorem firstIndexOf_take (c : Char) (l : List Char) :
    ∀ j, firstIndexOf c l = some j →
      l.take j = l.takeWhile (fun x => decide (x ≠ c)) := by
  induction l with
  | nil => intro j hj; simp [firstIndexOf] at hj
  | cons x xs ih =>
    intro j hj
    by_cases hx : x = c
    · simp only [firstIndexOf, if_pos hx] at hj
      injection hj with hj'
      subst hj'
      subst hx
      rw [List.takeWhile_cons_of_neg (by simp)]
      rfl
    · simp only [firstIndexOf, if_neg hx] at hj
      cases hfi : firstIndexOf c xs with
      | none => rw [hfi] at hj; simp at hj
      | some i =>
        rw [hfi] at hj
        simp only [Option.map_some'] at hj
        injection hj with hj'
        subst hj'
        rw [List.take_succ_cons, List.takeWhile_cons_of_pos (by simp [hx]), ih i hfi]

/-- The final slash-delimited segment of a qualified name (what follows
the last `'/'`, or the whole name when there is no `'/'`). -/
def finalSegment (name : String) : List Char :=
  match lastIndexOf '/' name.toList with
  | some pos => name.toList.drop (pos + 1)
  | none => name.toList

/-- Package-path derivation in the spec's words, for C7: keep everything
up to the last `'/'`, then the final segment truncated just before its
first period. -/
def pkgPathSpec (name : String) : String :=
  let cs := name.toList
  let e1 := match lastIndexOf '/' cs with
    | some pos => pos + 1
    | none => 0
  String.mk (cs.take e1 ++ (cs.drop e1).takeWhile (fun c => decide (c ≠ '.')))

theorem finalSegment_eq_drop (name : String) :
    finalSegment name = name.toList.drop
      (match lastIndexOf '/' name.toList with
       | some pos => pos + 1
       | none => 0) := by
  unfold finalSegment
  cases hls : lastIndexOf '/' name.toList with
  | none => rw [List.drop_zero]
  | some pos => rfl

theorem getPkgPath_eq_spec_aux (cs : List Char) (e1 : Nat)
    (hdot : '.' ∈ cs.drop e1) :
    cs.take (match firstIndexOf '.' (cs.drop e1) with
             | some pos => e1 + pos
             | none => e1) =
      cs.take e1 ++ (cs.drop e1).takeWhile (fun c => decide (c ≠ '.')) := by
  obtain ⟨j, hj⟩ := firstIndexOf_some_of_mem '.' _ hdot
  rw [hj, List.take_add cs e1 j]
  congr 1
  exact firstIndexOf_take '.' _ j hj

theorem emit_skip_result (r : Registry) (mpn : String)
    (colorFunc whiteBold : String → String) (usePfx withFileLine exitAfter : Bool)
    (lvl : Level) (caller : Option Caller) (body : String)
    (h : Part1.skip r caller lvl = true) :
    Part1.emit r mpn colorFunc whiteBold usePfx withFileLine exitAfter lvl caller body =
      { out := "", exitCode := none } := by
  unfold Part1.emit
  rw [if_pos h]

theorem emit_noskip_result (r : Registry) (mpn : String)
    (colorFunc whiteBold : String → String) (usePfx withFileLine exitAfter : Bool)
    (lvl : Level) (caller : Option Caller) (body : String)
    (h : Part1.skip r caller lvl = false) :
    Part1.emit r mpn colorFunc whiteBold usePfx withFileLine exitAfter lvl caller body =
      { out := (if usePfx then
                  Part1.getPrefixTag colorFunc mpn caller ++
                    (if withFileLine then getFileLine whiteBold caller else "")
                else "") ++ body ++ "\n",
        exitCode := if exitAfter then some 1 else none } := by
  unfold Part1.emit
  rw [if_neg (by rw [h]; exact Bool.false_ne_true)]

theorem emit_no_exit (r : Registry) (mpn : String)
    (colorFunc whiteBold : String → String) (usePfx withFileLine : Bool)
    (lvl : Level) (caller : Option Caller) (body : String) :
    (Part1.emit r mpn colorFunc whiteBold usePfx withFileLine false lvl caller body).exitCode =
      none := by
  cases h : Part1.skip r caller lvl with
  | true => rw [emit_skip_result r mpn colorFunc whiteBold usePfx withFileLine false lvl caller body h]
  | false =>
    rw [emit_noskip_result r mpn colorFunc whiteBold usePfx withFileLine false lvl caller body h]
    rfl

/-! ### Claim theorems -/

/-- C1 counterexample: with the function path `"a/b.F"` bound to `-4`
(which permits a severity-0 message, `-4 ≤ 0`) and the package path
`"a/b"` bound to `8`, the part_000 revision of `skip` still suppresses
the message: the package-level lookup is consulted even though the
function-level lookup matched and permitted emission, contradicting the
claim for the part_000 `skip` it cites. -/
theorem C1_counterexample :
    Part0.PathLevel (SetPathLevel (SetPathLevel emptyRegistry "a/b" 8) "a/b.F" (-4))
        "a/b.F" = (-4, true) ∧
    ((-4 : Level) ≤ 0) ∧
    getQualifiedPaths (some { name := "a/b.F", file := "f.go", line := 1 }) =
      ("a/b", "a/b.F") ∧
    Part0.skip (SetPathLevel (SetPathLevel emptyRegistry "a/b" 8) "a/b.F" (-4))
      (some { name := "a/b.F", file := "f.go", line := 1 }) 0 = true := by
  refine ⟨by decide, by decide, by decide, by decide⟩

/-- C1 (amended): in the clog.go and part_001 revisions of `skip` a
function-path match short-circuits — the decision equals
`funcLevel > cur` and the package-level lookup is never consulted, so a
permitting function-level threshold permits emission regardless of any
package-level threshold.  In the part_000 revision the decision instead
suppresses when either the function-path or the package-path match
exceeds the severity, so there a permitting function-level match does
not short-circuit. -/
theorem C1_function_match_short_circuits (r : Registry) (caller : Option Caller)
    (cur : Level) :
    ((Clog.PathLevel r (getQualifiedPaths caller).2).2 = true →
      Clog.skip r caller cur =
        decide ((Clog.PathLevel r (getQualifiedPaths caller).2).1 > cur)) ∧
    ((Part1.PathLevel r (getQualifiedPaths caller).2).2 = true →
      Part1.skip r caller cur =
        decide ((Part1.PathLevel r (getQualifiedPaths caller).2).1 > cur)) ∧
    (Part0.skip r caller cur =
      (((Part0.PathLevel r (getQualifiedPaths caller).2).2 &&
          decide ((Part0.PathLevel r (getQualifiedPaths caller).2).1 > cur)) ||
        ((Part0.PathLevel r (getQualifiedPaths caller).1).2 &&
          decide ((Part0.PathLevel r (getQualifiedPaths caller).1).1 > cur)))) := by
  refine ⟨?_, ?_, ?_⟩
  · intro h
    unfold Clog.skip
    rw [if_pos h]
  · intro h
    unfold Part1.skip
    rw [if_pos h]
  · unfold Part0.skip
    by_cases h1 : ((Part0.PathLevel r (getQualifiedPaths caller).2).2 &&
        decide ((Part0.PathLevel r (getQualifiedPaths caller).2).1 > cur)) = true
    · rw [if_pos h1, h1]
      rfl
    · rw [if_neg h1]
      rw [Bool.not_eq_true] at h1
      rw [h1]
      by_cases h2 : ((Part0.PathLevel r (getQualifiedPaths caller).1).2 &&
          decide ((Part0.PathLevel r (getQualifiedPaths caller).1).1 > cur)) = true
      · rw [if_pos h2, h2]
        rfl
      · rw [if_neg h2]
        rw [Bool.not_eq_true] at h2
        rw [h2]
        rfl

/-- C1 witness: at the counterexample's registry, clog.go's `skip`
resolves the matching function-level threshold `-4` and permits. -/
theorem C1_witness :
    Clog.skip (SetPathLevel (SetPathLevel emptyRegistry "a/b" 8) "a/b.F" (-4))
        (some { name := "a/b.F", file := "f.go", line := 1 }) 0 =
      decide ((Clog.PathLevel (SetPathLevel (SetPathLevel emptyRegistry "a/b" 8) "a/b.F" (-4))
          (getQualifiedPaths (some { name := "a/b.F", file := "f.go", line := 1 })).2).1 > 0) :=
  (C1_function_match_short_circuits
      (SetPathLevel (SetPathLevel emptyRegistry "a/b" 8) "a/b.F" (-4))
      (some { name := "a/b.F", file := "f.go", line := 1 }) 0).1 (by decide)

/-- C2: part_001's hierarchical `PathLevel` returns an exact entry
unchanged; on a miss it ascends to `filepath.Dir` of the path unless the
parent is empty or a fixed point, in which case it reports `(0, false)`;
consequently a threshold installed at `"a/b"` governs `"a/b/c"` and
`"a/b/c.Func"` exactly as it governs `"a/b"` when no more specific entry
exists. -/
theorem C2_hierarchical_pathLevel (r : Registry) (p : String) (l : Level) :
    (r p = some l → Part1.PathLevel r p = (l, true)) ∧
    (r p = none → ((goDir p).length = 0 ∨ goDir p = p) →
      Part1.PathLevel r p = (0, false)) ∧
    (r p = none → ¬ ((goDir p).length = 0 ∨ goDir p = p) →
      Part1.PathLevel r p = Part1.PathLevel r (goDir p)) ∧
    (r "a/b" = some l → r "a/b/c" = none →
      Part1.PathLevel r "a/b/c" = Part1.PathLevel r "a/b") ∧
    (r "a/b" = some l → r "a/b/c.Func" = none →
      Part1.PathLevel r "a/b/c.Func" = Part1.PathLevel r "a/b") := by
  refine ⟨fun h => PathLevel_hit r p l h,
          fun h hb => PathLevel_break r p h hb,
          fun h hb => PathLevel_step r p h hb, ?_, ?_⟩
  · intro _ hnone
    have hstep := PathLevel_step r "a/b/c" hnone (by decide)
    have hdir : goDir "a/b/c" = "a/b" := by decide
    rwa [hdir] at hstep
  · intro _ hnone
    have hstep := PathLevel_step r "a/b/c.Func" hnone (by decide)
    have hdir : goDir "a/b/c.Func" = "a/b" := by decide
    rwa [hdir] at hstep

/-- C2 witness: with only `"a/b"` set (to 5), the lookups at the
descendant paths agree with the lookup at `"a/b"` itself. -/
theorem C2_witness :
    Part1.PathLevel (SetPathLevel emptyRegistry "a/b" 5) "a/b/c" =
      Part1.PathLevel (SetPathLevel emptyRegistry "a/b" 5) "a/b" ∧
    Part1.PathLevel (SetPathLevel emptyRegistry "a/b" 5) "a/b" = (5, true) :=
  ⟨(C2_hierarchical_pathLevel (SetPathLevel emptyRegistry "a/b" 5) "a/b" 5).2.2.2.1
      (by decide) (by decide),
    by decide⟩

/-- C6: `SetPathLevel` followed by `PathLevel` on the same path returns
the set level (in both the exact clog.go lookup and the hierarchical
part_001 lookup), setting the same path and level twice leaves the
registry exactly as setting it once, and of two successive sets on the
same path the last one wins.  The statement quantifies over every path
string and level, so no path format constraint exists and no failure is
possible. -/
theorem C6_set_get_roundtrip (r : Registry) (p : String) (l l1 l2 : Level) :
    Clog.PathLevel (SetPathLevel r p l) p = (l, true) ∧
    Part1.PathLevel (SetPathLevel r p l) p = (l, true) ∧
    SetPathLevel (SetPathLevel r p l) p l = SetPathLevel r p l ∧
    Clog.PathLevel (SetPathLevel (SetPathLevel r p l1) p l2) p = (l2, true) ∧
    Part1.PathLevel (SetPathLevel (SetPathLevel r p l1) p l2) p = (l2, true) := by
  have hset : ∀ (r' : Registry) (l' : Level), (SetPathLevel r' p l') p = some l' := by
    intro r' l'
    unfold SetPathLevel
    rw [if_pos rfl]
  refine ⟨?_, ?_, ?_, ?_, ?_⟩
  · unfold Clog.PathLevel
    rw [hset r l]
  · exact PathLevel_hit _ p l (hset r l)
  · funext q
    unfold SetPathLevel
    by_cases h : q = p
    · rw [if_pos h, if_pos h]
    · rw [if_neg h, if_neg h]
  · unfold Clog.PathLevel
    rw [hset _ l2]
  · exact PathLevel_hit _ p l2 (hset _ l2)

/-- C3: for every part_001 emission entry point (any tier flags and
severity), if the override resolved for the call site exceeds the
message severity the call performs no writes and has no side effect; if
the resolved override permits, or no override resolves, the call writes
exactly one sequence — optional prefix, body, trailing newline — to the
tier's sink. -/
theorem C3_emit_write_once (r : Registry) (mpn : String)
    (colorFunc whiteBold : String → String) (usePfx withFileLine exitAfter : Bool)
    (lvl : Level) (caller : Option Caller) (body : String) :
    (∀ t, Part1.resolvedLevel r caller = some t →
      ((t > lvl →
          Part1.emit r mpn colorFunc whiteBold usePfx withFileLine exitAfter lvl caller body =
            { out := "", exitCode := none }) ∧
        (t ≤ lvl →
          Part1.emit r mpn colorFunc whiteBold usePfx withFileLine exitAfter lvl caller body =
            { out := (if usePfx then
                        Part1.getPrefixTag colorFunc mpn caller ++
                          (if withFileLine then getFileLine whiteBold caller else "")
                      else "") ++ body ++ "\n",
              exitCode := if exitAfter then some 1 else none }))) ∧
    (Part1.resolvedLevel r caller = none →
      Part1.emit r mpn colorFunc whiteBold usePfx withFileLine exitAfter lvl caller body =
        { out := (if usePfx then
                    Part1.getPrefixTag colorFunc mpn caller ++
                      (if withFileLine then getFileLine whiteBold caller else "")
                  else "") ++ body ++ "\n",
          exitCode := if exitAfter then some 1 else none }) := by
  have hs := skip_eq_resolvedLevel r caller lvl
  constructor
  · intro t ht
    rw [ht] at hs
    constructor
    · intro hgt
      have hskip : Part1.skip r caller lvl = true := by
        rw [hs]
        exact decide_eq_true hgt
      exact emit_skip_result r mpn colorFunc whiteBold usePfx withFileLine exitAfter
        lvl caller body hskip
    · intro hle
      have hskip : Part1.skip r caller lvl = false := by
        rw [hs]
        exact decide_eq_false (not_lt.mpr hle)
      exact emit_noskip_result r mpn colorFunc whiteBold usePfx withFileLine exitAfter
        lvl caller body hskip
  · intro hnone
    rw [hnone] at hs
    exact emit_noskip_result r mpn colorFunc whiteBold usePfx withFileLine exitAfter
      lvl caller body hs

/-- C3 witness: with no override installed, an info-style emission from a
resolved caller writes prefix, body and newline. -/
theorem C3_witness :
    Part1.emit emptyRegistry "" (fun s => s) (fun s => s) true false false
        LevelInfo none "count=5" =
      { out := (if true then
                  Part1.getPrefixTag (fun s => s) "" none ++
                    (if false then getFileLine (fun s => s) none else "")
                else "") ++ "count=5" ++ "\n",
        exitCode := if false then some 1 else none } :=
  (C3_emit_write_once emptyRegistry "" (fun s => s) (fun s => s) true false false
      LevelInfo none "count=5").2 (by decide)

/-- C4: a fatal-tier call that is not suppressed writes its message and
reaches `os.Exit(1)`; a suppressed fatal-tier call performs no write and
does not exit; and no debug-, info- or warn-tier entry point ever exits,
whatever the registry state. -/
theorem C4_fatal_exit (r : Registry) (mpn : String)
    (colorFunc whiteBold : String → String) (usePfx : Bool)
    (caller : Option Caller) (body : String) :
    (Part1.skip r caller LevelError = false →
      (Part1.Fatal r mpn colorFunc whiteBold usePfx caller body).exitCode = some 1 ∧
      (Part1.Fatalf r mpn colorFunc whiteBold usePfx caller body).exitCode = some 1 ∧
      (Part1.Fatalln r mpn colorFunc whiteBold usePfx caller body).exitCode = some 1 ∧
      (Part1.Fatal r mpn colorFunc whiteBold usePfx caller body).out =
        (if usePfx then
           Part1.getPrefixTag colorFunc mpn caller ++ getFileLine whiteBold caller
         else "") ++ body ++ "\n") ∧
    (Part1.skip r caller LevelError = true →
      Part1.Fatal r mpn colorFunc whiteBold usePfx caller body =
        { out := "", exitCode := none } ∧
      Part1.Fatalf r mpn colorFunc whiteBold usePfx caller body =
        { out := "", exitCode := none } ∧
      Part1.Fatalln r mpn colorFunc whiteBold usePfx caller body =
        { out := "", exitCode := none }) ∧
    (Part1.Debug r mpn colorFunc usePfx caller body).exitCode = none ∧
    (Part1.Debugf r mpn colorFunc usePfx caller body).exitCode = none ∧
    (Part1.Debugln r mpn colorFunc usePfx caller body).exitCode = none ∧
    (Part1.Info r mpn colorFunc usePfx caller body).exitCode = none ∧
    (Part1.Infof r mpn colorFunc usePfx caller body).exitCode = none ∧
    (Part1.Infoln r mpn colorFunc usePfx caller body).exitCode = none ∧
    (Part1.Warn r mpn colorFunc whiteBold usePfx caller body).exitCode = none ∧
    (Part1.Warnf r mpn colorFunc whiteBold usePfx caller body).exitCode = none ∧
    (Part1.Warnln r mpn colorFunc whiteBold usePfx caller body).exitCode = none := by
  refine ⟨?_, ?_, ?_, ?_, ?_, ?_, ?_, ?_, ?_, ?_, ?_⟩
  · intro h
    have he := emit_noskip_result r mpn colorFunc whiteBold usePfx true true
      LevelError caller body h
    unfold Part1.Fatal Part1.Fatalf Part1.Fatalln
    rw [he]
    refine ⟨rfl, rfl, rfl, ?_⟩
    rw [if_pos rfl]
  · intro h
    have he := emit_skip_result r mpn colorFunc whiteBold usePfx true true
      LevelError caller body h
    unfold Part1.Fatal Part1.Fatalf Part1.Fatalln
    rw [he]
    exact ⟨rfl, rfl, rfl⟩
  · exact emit_no_exit r mpn colorFunc (fun s => s) usePfx false LevelDebug caller body
  · exact emit_no_exit r mpn colorFunc (fun s => s) usePfx false LevelDebug caller body
  · exact emit_no_exit r mpn colorFunc (fun s => s) usePfx false LevelDebug caller body
  · exact emit_no_exit r mpn colorFunc (fun s => s) usePfx false LevelInfo caller body
  · exact emit_no_exit r mpn colorFunc (fun s => s) usePfx false LevelInfo caller body
  · exact emit_no_exit r mpn colorFunc (fun s => s) usePfx false LevelInfo caller body
  · exact emit_no_exit r mpn colorFunc whiteBold usePfx true LevelWarn caller body
  · exact emit_no_exit r mpn colorFunc whiteBold usePfx true LevelWarn caller body
  · exact emit_no_exit r mpn colorFunc whiteBold usePfx true LevelWarn caller body

/-- C4 witness: with an empty registry a fatal call from an unresolved
caller is not suppressed and reaches `os.Exit(1)`. -/
theorem C4_witness :
    (Part1.Fatal emptyRegistry "" (fun s => s) (fun s => s) true none "boom").exitCode =
      some 1 :=
  ((C4_fatal_exit emptyRegistry "" (fun s => s) (fun s => s) true none "boom").1
    (by decide)).1

/-- C5 counterexample: the claim promises the message is written for
*every* registry state when stack inspection fails, but installing a
threshold for the empty path (which `SetPathLevel` accepts) suppresses
the unattributed call: `skip` resolves the `""` entry because the
caller's paths degrade to `""`. -/
theorem C5_counterexample :
    Part1.skip (SetPathLevel emptyRegistry "" 9) none LevelDebug = true ∧
    (Part1.Debugf (SetPathLevel emptyRegistry "" 9) "" (fun s => s) true none
        "hello").out = "" := by
  refine ⟨by decide, ?_⟩
  rfl

/-- C5 (amended): when stack inspection fails the caller's package and
function paths degrade to `""`, the prefix and file:line tags are empty,
and — provided no threshold is installed for the empty path or for `"."`
(the paths the hierarchical ascent from `""` visits) — no override
applies, the message is not suppressed, and the call still writes the
body and trailing newline; the model is a total function, so no error is
raised to the caller. -/
theorem C5_caller_failure_degrades (r : Registry) (mpn : String)
    (colorFunc whiteBold : String → String) (usePfx withFileLine exitAfter : Bool)
    (lvl : Level) (body : String)
    (h1 : r "" = none) (h2 : r "." = none) :
    getQualifiedPaths none = ("", "") ∧
    Part1.getPrefixTag colorFunc mpn none = "" ∧
    getFileLine whiteBold none = "" ∧
    Part1.skip r none lvl = false ∧
    (Part1.emit r mpn colorFunc whiteBold usePfx withFileLine exitAfter lvl none body).out =
      body ++ "\n" := by
  have hPL : Part1.PathLevel r "" = (0, false) := by
    have hstep := PathLevel_step r "" h1 (by decide)
    have hdir : goDir "" = "." := by decide
    rw [hdir] at hstep
    rw [hstep]
    exact PathLevel_break r "." h2 (by decide)
  have hskip : Part1.skip r none lvl = false := by
    unfold Part1.skip
    simp only [getQualifiedPaths, hPL]
    rfl
  refine ⟨rfl, rfl, rfl, hskip, ?_⟩
  rw [emit_noskip_result r mpn colorFunc whiteBold usePfx withFileLine exitAfter
    lvl none body hskip]
  have hpre : (if usePfx then
      Part1.getPrefixTag colorFunc mpn none ++
        (if withFileLine then getFileLine whiteBold none else "")
    else "") = "" := by
    cases usePfx with
    | false => rfl
    | true =>
      cases withFileLine with
      | false => rfl
      | true => rfl
  rw [hpre, str_empty_append]

/-- C5 witness: with the empty registry, a warn-style emission from a
failed stack inspection still writes body and newline, unsuppressed and
without prefix. -/
theorem C5_witness :
    (Part1.emit emptyRegistry "" (fun s => s) (fun s => s) true true false
        LevelWarn none "w").out = "w" ++ "\n" :=
  (C5_caller_failure_degrades emptyRegistry "" (fun s => s) (fun s => s) true true false
      LevelWarn "w" rfl rfl).2.2.2.2

/-- C7: for a path-qualified function name — one whose final
slash-delimited segment contains a period — `getPkgPath` returns the
name with everything from that first period onward removed (the prefix
up to the last `'/'` plus the final segment truncated before its first
`'.'`), and the documented examples hold. -/
theorem C7_getPkgPath_spec (name : String) (hdot : '.' ∈ finalSegment name) :
    getPkgPath name = pkgPathSpec name ∧
    getPkgPath "github.com/mewpkg/clog.Debugf" = "github.com/mewpkg/clog" ∧
    getPkgPath "main.main" = "main" := by
  refine ⟨?_, by decide, by decide⟩
  rw [finalSegment_eq_drop] at hdot
  unfold getPkgPath pkgPathSpec
  exact congrArg String.mk (getPkgPath_eq_spec_aux name.toList _ hdot)

/-- C7 witness: the derivation agrees with the spec reading at
`"main.main"`. -/
theorem C7_witness :
    getPkgPath "main.main" = pkgPathSpec "main.main" ∧
    pkgPathSpec "main.main" = "main" :=
  ⟨(C7_getPkgPath_spec "main.main" (by decide)).1, by decide⟩

/-- C8: part_001's `getPkgName` returns the `mainPrefixName` override
exactly when the name derived by the clog.go rule (last slash-delimited
segment truncated at its first period) is `"main"` and the override is
non-empty; otherwise — no override set, empty override, or a package
other than `"main"` — it returns the derived name unchanged. -/
theorem C8_mainPrefixName_override (mpn name : String) :
    Part1.getPkgName mpn name =
      (if Clog.getPkgName name = "main" ∧ mpn ≠ "" then mpn
       else Clog.getPkgName name) ∧
    Part1.getPkgName "myapp" "main.main" = "myapp" ∧
    Part1.getPkgName "" "main.main" = "main" ∧
    Part1.getPkgName "myapp" "a/b.Func" = "b" := by
  refine ⟨?_, by decide, by decide, by decide⟩
  have hiff := length_pos_iff_ne_empty mpn
  show (if Clog.getPkgName name = "main" ∧ 0 < mpn.length then mpn
        else Clog.getPkgName name) = _
  by_cases hm : Clog.getPkgName name = "main" ∧ mpn ≠ ""
  · rw [if_pos ⟨hm.1, hiff.mpr hm.2⟩, if_pos hm]
  · rw [if_neg (fun hcon => hm ⟨hcon.1, hiff.mp hcon.2⟩), if_neg hm]

/-- C9: suppression is antitone in the message severity for all three
revisions of `skip`: with the registry and caller fixed, a message
emitted at severity `s` is also emitted at every severity `s' ≥ s`. -/
theorem C9_suppression_antitone (r : Registry) (caller : Option Caller)
    (s t : Level) (hst : s ≤ t) :
    (Part0.skip r caller s = false → Part0.skip r caller t = false) ∧
    (Clog.skip r caller s = false → Clog.skip r caller t = false) ∧
    (Part1.skip r caller s = false → Part1.skip r caller t = false) := by
  refine ⟨?_, ?_, ?_⟩
  · intro h
    unfold Part0.skip at h ⊢
    cases hf : (Part0.PathLevel r (getQualifiedPaths caller).2).2 <;>
      cases hp : (Part0.PathLevel r (getQualifiedPaths caller).1).2 <;>
        simp [hf, hp] at h ⊢ <;>
          first
            | exact le_trans h hst
            | exact ⟨le_trans h.1 hst, le_trans h.2 hst⟩
  · intro h
    unfold Clog.skip at h ⊢
    cases hf : (Clog.PathLevel r (getQualifiedPaths caller).2).2 <;>
      cases hp : (Clog.PathLevel r (getQualifiedPaths caller).1).2 <;>
        simp [hf, hp] at h ⊢ <;>
          exact le_trans h hst
  · intro h
    unfold Part1.skip at h ⊢
    cases hf : (Part1.PathLevel r (getQualifiedPaths caller).2).2 <;>
      cases hp : (Part1.PathLevel r (getQualifiedPaths caller).1).2 <;>
        simp [hf, hp] at h ⊢ <;>
          exact le_trans h hst

/-- C9 witness: a call permitted at severity 0 stays permitted at
severity 4 under the same registry and caller. -/
theorem C9_witness :
    Part1.skip (SetPathLevel emptyRegistry "a" 0)
      (some { name := "a.F", file := "f.go", line := 3 }) 4 = false :=
  ((C9_suppression_antitone (SetPathLevel emptyRegistry "a" 0)
      (some { name := "a.F", file := "f.go", line := 3 }) 0 4 (by decide)).2.2)
    (by decide)

/-- C10: the hierarchical lookup loop terminates on every path string
and registry state: fuel `2 * length + 2` always suffices (the loop
reaches an exact hit or the break condition before the fuel runs out),
and any larger fuel computes the same result, so `Part1.PathLevel` is a
total function of the path and the registry. -/
theorem C10_pathLevel_total (r : Registry) (p : String) :
    (∃ res, Part1.pathLevelLoop r (2 * p.length + 2) p = some res) ∧
    (∀ n, 2 * p.length + 2 ≤ n →
      Part1.pathLevelLoop r n p = Part1.pathLevelLoop r (2 * p.length + 2) p) := by
  constructor
  · have h := pathLevelLoop_isSome r (2 * p.length + 2) p (pathMeasure_lt_fuel p)
    cases hres : Part1.pathLevelLoop r (2 * p.length + 2) p with
    | none => rw [hres] at h; simp at h
    | some res => exact ⟨res, rfl⟩
  · intro n hn
    apply pathLevelLoop_fuel
    · have := pathMeasure_lt_fuel p
      omega
    · exact pathMeasure_lt_fuel p

/-- C10 witness: at `"a/b"` (fuel bound 8) the loop gives the same
answer with fuel 10. -/
theorem C10_witness :
    Part1.pathLevelLoop emptyRegistry 10 "a/b" =
      Part1.pathLevelLoop emptyRegistry (2 * "a/b".length + 2) "a/b" :=
  (C10_pathLevel_total emptyRegistry "a/b").2 10 (by decide)
